import Mathlib

/-!
Verification development for the mysql-replicator repository.

The source programs embedded here are:
- `structure_analyzer.py` (`StructureAnalyzer._compare_structures`,
  `_compare_foreign_keys`, `_compare_indexes`, `get_replication_plan`),
- `src/core/replicator.py` (`Replicator.replicate_structure`, `replicate_data`,
  `_create_table`, `_create_table_without_foreign_keys`, `_alter_table`,
  `_update_indexes`, `_insert_data`, `_add_missing_foreign_keys`,
  `_sort_tables_by_dependency`, `_get_column_position`),
- `src/managers/database_manager.py` (`DatabaseManager.execute_query`).

Python dictionaries built by comprehensions such as
`{col['Field']: col for col in source}` are modelled as insertion-ordered
association lists where a repeated key keeps its first position but takes the
last value, exactly as in CPython.  Python sets are modelled as
first-occurrence-deduplicated lists (set iteration order is unspecified in
Python; the claims settled here are insensitive to that order).
-/

/-! ### Generic helpers -/

/-- First-occurrence deduplication: the model of `set(xs)` iterated in a
deterministic (input-stable) order.  Keeps the first occurrence of every
element: later duplicates are filtered out of the deduplicated tail. -/
def dedupFirst {α : Type} [DecidableEq α] : List α → List α
  | [] => []
  | x :: xs => x :: (dedupFirst xs).filter (fun y => y ≠ x)

theorem mem_dedupFirst {α : Type} [DecidableEq α] (a : α) (l : List α) :
    a ∈ dedupFirst l ↔ a ∈ l := by
  induction l with
  | nil => simp [dedupFirst]
  | cons x xs ih =>
    by_cases hax : a = x
    · simp [dedupFirst, hax]
    · simp [dedupFirst, List.mem_filter, hax, ih]

theorem nodup_dedupFirst {α : Type} [DecidableEq α] (l : List α) :
    (dedupFirst l).Nodup := by
  induction l with
  | nil => simp [dedupFirst]
  | cons x xs ih =>
    refine List.nodup_cons.mpr ⟨?_, ih.filter _⟩
    simp [List.mem_filter]

theorem length_filter_lt_of_mem {α : Type} {l : List α} {p : α → Bool} {x : α}
    (hx : x ∈ l) (hpx : p x = false) : (l.filter p).length < l.length := by
  induction l with
  | nil => cases hx
  | cons y ys ih =>
    rcases List.mem_cons.mp hx with h | h
    · subst h
      rw [List.filter_cons_of_neg (by simp [hpx])]
      have := ys.length_filter_le p
      simp
      omega
    · by_cases hy : p y
      · rw [List.filter_cons_of_pos hy]
        have := ih h
        simp
        omega
      · rw [List.filter_cons_of_neg (by simp_all)]
        have := ys.length_filter_le p
        simp
        omega

theorem find?_eq_head?_filter {α : Type} (p : α → Bool) :
    ∀ l : List α, l.find? p = (l.filter p).head? := by
  intro l
  induction l with
  | nil => rfl
  | cons x xs ih =>
    by_cases h : p x
    · rw [List.find?_cons_of_pos _ h, List.filter_cons_of_pos h]
      rfl
    · rw [List.find?_cons_of_neg _ (by simpa using h),
        List.filter_cons_of_neg (by simpa using h)]
      exact ih

/-- Index of the first occurrence of `a` (length of the list when absent). -/
def idxOf {α : Type} [DecidableEq α] (a : α) : List α → Nat
  | [] => 0
  | x :: xs => if x = a then 0 else idxOf a xs + 1

theorem idxOf_lt_length {α : Type} [DecidableEq α] {a : α} :
    ∀ {l : List α}, a ∈ l → idxOf a l < l.length := by
  intro l h
  induction l with
  | nil => cases h
  | cons x xs ih =>
    by_cases hx : x = a
    · simp [idxOf, hx]
    · rcases List.mem_cons.mp h with h' | h'
      · exact absurd h'.symm hx
      · simp only [idxOf, hx, if_false, List.length_cons]
        exact Nat.succ_lt_succ (ih h')

theorem idxOf_append_left {α : Type} [DecidableEq α] {a : α} :
    ∀ {l₁ : List α}, a ∈ l₁ → ∀ l₂ : List α, idxOf a (l₁ ++ l₂) = idxOf a l₁ := by
  intro l₁ h l₂
  induction l₁ with
  | nil => cases h
  | cons x xs ih =>
    by_cases hx : x = a
    · simp [idxOf, hx]
    · rcases List.mem_cons.mp h with h' | h'
      · exact absurd h'.symm hx
      · simp [idxOf, hx, ih h']

theorem idxOf_append_right {α : Type} [DecidableEq α] {a : α} :
    ∀ {l₁ : List α}, a ∉ l₁ → ∀ l₂ : List α,
      idxOf a (l₁ ++ l₂) = l₁.length + idxOf a l₂ := by
  intro l₁ h l₂
  induction l₁ with
  | nil => simp [idxOf]
  | cons x xs ih =>
    have hx : x ≠ a := fun he => h (by simp [he])
    have hxs : a ∉ xs := fun he => h (by simp [he])
    simp [idxOf, hx, ih hxs]
    omega

/-- Substring test on character lists: models Python's `needle in haystack`. -/
def charListContains (needle : List Char) : List Char → Bool
  | [] => needle.isEmpty
  | c :: rest => needle.isPrefixOf (c :: rest) || charListContains needle rest

/-- Substring test: models Python's `'needle' in haystack`. -/
def strContains (haystack needle : String) : Bool :=
  charListContains needle.data haystack.data

/-! ### Data model (rows returned by `DatabaseManager`)

`get_table_structure` returns `DESCRIBE` rows with keys
`Field`, `Type`, `Null`, `Default`, `Extra`; `get_table_foreign_keys` returns
`KEY_COLUMN_USAGE` rows; `get_table_indexes` returns `SHOW INDEX` rows. -/

structure ColumnRow where
  Field : String
  Type' : String
  Null : String
  Default : Option String
  Extra : String
deriving DecidableEq, Repr

structure ForeignKeyRow where
  COLUMN_NAME : String
  REFERENCED_TABLE_NAME : String
  REFERENCED_COLUMN_NAME : String
  CONSTRAINT_NAME : String
deriving DecidableEq, Repr

structure IndexRow where
  Key_name : String
  Non_unique : Nat
  Column_name : String
  Seq_in_index : Nat
deriving DecidableEq, Repr

/-- The loosely-typed difference records produced by `StructureAnalyzer`,
as a closed tagged variant (one constructor per `'type'` string tag). -/
inductive SchemaDiff where
  | missing_column (column : String) (source_definition : ColumnRow)
  | extra_column (column : String) (target_definition : ColumnRow)
  | type_difference (column source_type target_type : String)
  | null_difference (column source_null target_null : String)
  | default_difference (column : String) (source_default target_default : Option String)
  | column_order_difference (source_order target_order : List String)
  | missing_foreign_key (column referenced_table referenced_column : String)
  | extra_foreign_key (column referenced_table referenced_column : String)
  | missing_index (index_name : String) (index_definition : List IndexRow)
  | extra_index (index_name : String) (index_definition : List IndexRow)
deriving DecidableEq, Repr

/-! ### Python dict model for `{col['Field']: col for col in cols}` -/

def dictInsert (d : List (String × ColumnRow)) (k : String) (v : ColumnRow) :
    List (String × ColumnRow) :=
  if d.any (fun p => p.1 = k) then
    d.map (fun p => if p.1 = k then (k, v) else p)
  else
    d ++ [(k, v)]

def colsDict (cols : List ColumnRow) : List (String × ColumnRow) :=
  cols.foldl (fun d c => dictInsert d c.Field c) []

def hasKey (d : List (String × ColumnRow)) (k : String) : Bool :=
  d.any (fun p => p.1 = k)

theorem keys_dictInsert (d : List (String × ColumnRow)) (k : String) (v : ColumnRow) :
    (dictInsert d k v).map Prod.fst =
      if hasKey d k then d.map Prod.fst else d.map Prod.fst ++ [k] := by
  unfold dictInsert hasKey
  by_cases h : d.any (fun p => p.1 = k)
  · simp only [h, if_true, List.map_map]
    refine List.map_congr_left ?_
    intro p _
    by_cases hp : p.1 = k
    · simp [hp]
    · simp [hp]
  · simp [h]

theorem keys_nodup_dictInsert {d : List (String × ColumnRow)} {k : String} {v : ColumnRow}
    (hd : (d.map Prod.fst).Nodup) : ((dictInsert d k v).map Prod.fst).Nodup := by
  rw [keys_dictInsert]
  by_cases h : hasKey d k = true
  · rw [if_pos h]
    exact hd
  · rw [if_neg h]
    rw [List.nodup_append]
    refine ⟨hd, List.nodup_singleton k, ?_⟩
    intro a ha hb
    rw [List.mem_singleton] at hb
    subst hb
    rcases List.mem_map.mp ha with ⟨p, hp, hpk⟩
    apply h
    unfold hasKey
    rw [List.any_eq_true]
    exact ⟨p, hp, by simp [hpk]⟩

theorem keys_nodup_colsDict (cols : List ColumnRow) :
    ((colsDict cols).map Prod.fst).Nodup := by
  suffices h : ∀ d : List (String × ColumnRow), (d.map Prod.fst).Nodup →
      ((cols.foldl (fun d c => dictInsert d c.Field c) d).map Prod.fst).Nodup by
    exact h [] (by simp)
  induction cols with
  | nil => intro d hd; simpa using hd
  | cons c cs ih =>
    intro d hd
    exact ih _ (keys_nodup_dictInsert hd)

theorem find?_self_of_keys_nodup {d : List (String × ColumnRow)}
    (hd : (d.map Prod.fst).Nodup) {p : String × ColumnRow} (hp : p ∈ d) :
    d.find? (fun q => q.1 = p.1) = some p := by
  induction d with
  | nil => cases hp
  | cons x xs ih =>
    rcases List.mem_cons.mp hp with h | h
    · subst h
      exact List.find?_cons_of_pos _ (by simp)
    · have hx : x.1 ≠ p.1 := by
        intro he
        have : x.1 ∈ xs.map Prod.fst := List.mem_map.mpr ⟨p, h, he.symm⟩
        exact (List.nodup_cons.mp (by simpa using hd)).1 this
      rw [List.find?_cons_of_neg _ (by simpa using hx)]
      exact ih (List.nodup_cons.mp (by simpa using hd)).2 h

theorem mem_of_mem_colsDict {cols : List ColumnRow} {p : String × ColumnRow} :
    p ∈ colsDict cols → p.1 ∈ (colsDict cols).map Prod.fst := by
  intro hp
  exact List.mem_map.mpr ⟨p, hp, rfl⟩

/-! ### Diff engine (`StructureAnalyzer._compare_structures`) -/

/-- The per-common-column comparison body: for a column present on both sides,
type, nullability and default are compared independently. -/
def commonColumnDiffs (target_cols : List (String × ColumnRow))
    (p : String × ColumnRow) : List SchemaDiff :=
  match target_cols.find? (fun q => q.1 = p.1) with
  | none => []
  | some q =>
    (if p.2.Type' ≠ q.2.Type' then
      [SchemaDiff.type_difference p.1 p.2.Type' q.2.Type'] else []) ++
    (if p.2.Null ≠ q.2.Null then
      [SchemaDiff.null_difference p.1 p.2.Null q.2.Null] else []) ++
    (if p.2.Default ≠ q.2.Default then
      [SchemaDiff.default_difference p.1 p.2.Default q.2.Default] else [])

/-- `StructureAnalyzer._compare_structures`: missing columns, extra columns,
attribute differences on common columns, then a single column-order record. -/
def compare_structures (source target : List ColumnRow) : List SchemaDiff :=
  let source_cols := colsDict source
  let target_cols := colsDict target
  let missing := (source_cols.filter (fun p => ! hasKey target_cols p.1)).map
    (fun p => SchemaDiff.missing_column p.1 p.2)
  let extra := (target_cols.filter (fun p => ! hasKey source_cols p.1)).map
    (fun p => SchemaDiff.extra_column p.1 p.2)
  let common := source_cols.flatMap (commonColumnDiffs target_cols)
  let source_order := source.map (fun c => c.Field)
  let target_order := target.map (fun c => c.Field)
  let order_diff :=
    if source_order ≠ target_order then
      [SchemaDiff.column_order_difference source_order target_order]
    else []
  missing ++ extra ++ common ++ order_diff

/-! ### Diff engine (`StructureAnalyzer._compare_foreign_keys`) -/

def fkTriple (fk : ForeignKeyRow) : String × String × String :=
  (fk.COLUMN_NAME, fk.REFERENCED_TABLE_NAME, fk.REFERENCED_COLUMN_NAME)

/-- `StructureAnalyzer._compare_foreign_keys`: set difference both ways on
(column, referenced table, referenced column) triples. -/
def compare_foreign_keys (source target : List ForeignKeyRow) : List SchemaDiff :=
  let source_fks := dedupFirst (source.map fkTriple)
  let target_fks := dedupFirst (target.map fkTriple)
  (source_fks.filter (fun t => t ∉ target_fks)).map
    (fun t => SchemaDiff.missing_foreign_key t.1 t.2.1 t.2.2) ++
  (target_fks.filter (fun t => t ∉ source_fks)).map
    (fun t => SchemaDiff.extra_foreign_key t.1 t.2.1 t.2.2)

/-! ### Diff engine (`StructureAnalyzer._compare_indexes`) -/

/-- Index names in first-occurrence order: the keys of the Python grouping
dict built by `_compare_indexes`. -/
def indexNames (rows : List IndexRow) : List String :=
  dedupFirst (rows.map (fun r => r.Key_name))

/-- The group of raw metadata rows filed under one index name. -/
def indexGroup (rows : List IndexRow) (name : String) : List IndexRow :=
  rows.filter (fun r => r.Key_name = name)

/-- `StructureAnalyzer._compare_indexes`: group rows by name, compare the name
sets; each record carries the full grouped definition. -/
def compare_indexes (source target : List IndexRow) : List SchemaDiff :=
  let sNames := indexNames source
  let tNames := indexNames target
  (sNames.filter (fun n => n ∉ tNames)).map
    (fun n => SchemaDiff.missing_index n (indexGroup source n)) ++
  (tNames.filter (fun n => n ∉ sNames)).map
    (fun n => SchemaDiff.extra_index n (indexGroup target n))

/-! ### Extractors over difference lists (the "sets reported by diff") -/

def missingColumnNames (ds : List SchemaDiff) : List String :=
  ds.filterMap fun d => match d with
    | SchemaDiff.missing_column c _ => some c
    | _ => none

def extraColumnNames (ds : List SchemaDiff) : List String :=
  ds.filterMap fun d => match d with
    | SchemaDiff.extra_column c _ => some c
    | _ => none

def missingFkTriples (ds : List SchemaDiff) : List (String × String × String) :=
  ds.filterMap fun d => match d with
    | SchemaDiff.missing_foreign_key c rt rc => some (c, rt, rc)
    | _ => none

def extraFkTriples (ds : List SchemaDiff) : List (String × String × String) :=
  ds.filterMap fun d => match d with
    | SchemaDiff.extra_foreign_key c rt rc => some (c, rt, rc)
    | _ => none

def missingIndexNames (ds : List SchemaDiff) : List String :=
  ds.filterMap fun d => match d with
    | SchemaDiff.missing_index n _ => some n
    | _ => none

def extraIndexNames (ds : List SchemaDiff) : List String :=
  ds.filterMap fun d => match d with
    | SchemaDiff.extra_index n _ => some n
    | _ => none

theorem hasKey_of_mem {d : List (String × ColumnRow)} {p : String × ColumnRow}
    (hp : p ∈ d) : hasKey d p.1 = true := by
  unfold hasKey
  rw [List.any_eq_true]
  exact ⟨p, hp, by simp⟩

theorem commonColumnDiffs_shape {tc : List (String × ColumnRow)} {p : String × ColumnRow}
    {d : SchemaDiff} (hd : d ∈ commonColumnDiffs tc p) :
    (∃ c s t, d = SchemaDiff.type_difference c s t) ∨
    (∃ c s t, d = SchemaDiff.null_difference c s t) ∨
    (∃ c s t, d = SchemaDiff.default_difference c s t) := by
  unfold commonColumnDiffs at hd
  rcases hq : tc.find? (fun q => q.1 = p.1) with _ | q
  · rw [hq] at hd
    cases hd
  · rw [hq] at hd
    simp only [List.mem_append] at hd
    rcases hd with (hd | hd) | hd <;> split at hd <;>
      simp only [List.mem_singleton, List.not_mem_nil] at hd
    all_goals first
      | exact Or.inl ⟨_, _, _, rfl⟩
      | exact Or.inr (Or.inl ⟨_, _, _, rfl⟩)
      | exact Or.inr (Or.inr ⟨_, _, _, rfl⟩)
      | (subst hd
         first
           | exact Or.inl ⟨_, _, _, rfl⟩
           | exact Or.inr (Or.inl ⟨_, _, _, rfl⟩)
           | exact Or.inr (Or.inr ⟨_, _, _, rfl⟩))

theorem missingColumnNames_compare (a b : List ColumnRow) :
    missingColumnNames (compare_structures a b) =
      ((colsDict a).filter (fun p => ! hasKey (colsDict b) p.1)).map Prod.fst := by
  unfold missingColumnNames compare_structures
  simp only [List.filterMap_append]
  have h1 : ∀ l : List (String × ColumnRow),
      (l.map (fun p => SchemaDiff.missing_column p.1 p.2)).filterMap
        (fun d => match d with
          | SchemaDiff.missing_column c _ => some c
          | _ => none) = l.map Prod.fst := by
    intro l
    induction l with
    | nil => rfl
    | cons x xs ih => simp [List.filterMap_cons, ih]
  have h2 : ∀ l : List (String × ColumnRow),
      (l.map (fun p => SchemaDiff.extra_column p.1 p.2)).filterMap
        (fun d => match d with
          | SchemaDiff.missing_column c _ => some c
          | _ => none) = [] := by
    intro l
    induction l with
    | nil => rfl
    | cons x xs ih => simp [List.filterMap_cons, ih]
  have h3 : ((colsDict a).flatMap (commonColumnDiffs (colsDict b))).filterMap
      (fun d => match d with
        | SchemaDiff.missing_column c _ => some c
        | _ => none) = [] := by
    rw [List.filterMap_eq_nil_iff]
    intro d hd
    rcases List.mem_flatMap.mp hd with ⟨p, _, hdp⟩
    rcases commonColumnDiffs_shape hdp with ⟨c, s, t, h⟩ | ⟨c, s, t, h⟩ | ⟨c, s, t, h⟩ <;>
      subst h <;> rfl
  have h4 : (if a.map (fun c => c.Field) ≠ b.map (fun c => c.Field) then
        [SchemaDiff.column_order_difference (a.map (fun c => c.Field))
          (b.map (fun c => c.Field))] else []).filterMap
      (fun d => match d with
        | SchemaDiff.missing_column c _ => some c
        | _ => none) = [] := by
    split <;> rfl
  rw [h1, h2, h3, h4]
  simp

theorem extraColumnNames_compare (a b : List ColumnRow) :
    extraColumnNames (compare_structures a b) =
      ((colsDict b).filter (fun p => ! hasKey (colsDict a) p.1)).map Prod.fst := by
  unfold extraColumnNames compare_structures
  simp only [List.filterMap_append]
  have h1 : ∀ l : List (String × ColumnRow),
      (l.map (fun p => SchemaDiff.missing_column p.1 p.2)).filterMap
        (fun d => match d with
          | SchemaDiff.extra_column c _ => some c
          | _ => none) = [] := by
    intro l
    induction l with
    | nil => rfl
    | cons x xs ih => simp [List.filterMap_cons, ih]
  have h2 : ∀ l : List (String × ColumnRow),
      (l.map (fun p => SchemaDiff.extra_column p.1 p.2)).filterMap
        (fun d => match d with
          | SchemaDiff.extra_column c _ => some c
          | _ => none) = l.map Prod.fst := by
    intro l
    induction l with
    | nil => rfl
    | cons x xs ih => simp [List.filterMap_cons, ih]
  have h3 : ((colsDict a).flatMap (commonColumnDiffs (colsDict b))).filterMap
      (fun d => match d with
        | SchemaDiff.extra_column c _ => some c
        | _ => none) = [] := by
    rw [List.filterMap_eq_nil_iff]
    intro d hd
    rcases List.mem_flatMap.mp hd with ⟨p, _, hdp⟩
    rcases commonColumnDiffs_shape hdp with ⟨c, s, t, h⟩ | ⟨c, s, t, h⟩ | ⟨c, s, t, h⟩ <;>
      subst h <;> rfl
  have h4 : (if a.map (fun c => c.Field) ≠ b.map (fun c => c.Field) then
        [SchemaDiff.column_order_difference (a.map (fun c => c.Field))
          (b.map (fun c => c.Field))] else []).filterMap
      (fun d => match d with
        | SchemaDiff.extra_column c _ => some c
        | _ => none) = [] := by
    split <;> rfl
  rw [h1, h2, h3, h4]
  simp

theorem missingFkTriples_compare (f g : List ForeignKeyRow) :
    missingFkTriples (compare_foreign_keys f g) =
      (dedupFirst (f.map fkTriple)).filter
        (fun t => t ∉ dedupFirst (g.map fkTriple)) := by
  unfold missingFkTriples compare_foreign_keys
  rw [List.filterMap_append]
  have h1 : ∀ l : List (String × String × String),
      (l.map (fun t => SchemaDiff.missing_foreign_key t.1 t.2.1 t.2.2)).filterMap
        (fun d => match d with
          | SchemaDiff.missing_foreign_key c rt rc => some (c, rt, rc)
          | _ => none) = l := by
    intro l
    induction l with
    | nil => rfl
    | cons x xs ih => simp [List.filterMap_cons, ih]
  have h2 : ∀ l : List (String × String × String),
      (l.map (fun t => SchemaDiff.extra_foreign_key t.1 t.2.1 t.2.2)).filterMap
        (fun d => match d with
          | SchemaDiff.missing_foreign_key c rt rc => some (c, rt, rc)
          | _ => none) = [] := by
    intro l
    induction l with
    | nil => rfl
    | cons x xs ih => simp [List.filterMap_cons, ih]
  rw [h1, h2]
  simp

theorem extraFkTriples_compare (f g : List ForeignKeyRow) :
    extraFkTriples (compare_foreign_keys f g) =
      (dedupFirst (g.map fkTriple)).filter
        (fun t => t ∉ dedupFirst (f.map fkTriple)) := by
  unfold extraFkTriples compare_foreign_keys
  rw [List.filterMap_append]
  have h1 : ∀ l : List (String × String × String),
      (l.map (fun t => SchemaDiff.missing_foreign_key t.1 t.2.1 t.2.2)).filterMap
        (fun d => match d with
          | SchemaDiff.extra_foreign_key c rt rc => some (c, rt, rc)
          | _ => none) = [] := by
    intro l
    induction l with
    | nil => rfl
    | cons x xs ih => simp [List.filterMap_cons, ih]
  have h2 : ∀ l : List (String × String × String),
      (l.map (fun t => SchemaDiff.extra_foreign_key t.1 t.2.1 t.2.2)).filterMap
        (fun d => match d with
          | SchemaDiff.extra_foreign_key c rt rc => some (c, rt, rc)
          | _ => none) = l := by
    intro l
    induction l with
    | nil => rfl
    | cons x xs ih => simp [List.filterMap_cons, ih]
  rw [h1, h2]
  simp

theorem missingIndexNames_compare (s t : List IndexRow) :
    missingIndexNames (compare_indexes s t) =
      (indexNames s).filter (fun n => n ∉ indexNames t) := by
  unfold missingIndexNames compare_indexes
  rw [List.filterMap_append]
  have h1 : ∀ l : List String,
      (l.map (fun n => SchemaDiff.missing_index n (indexGroup s n))).filterMap
        (fun d => match d with
          | SchemaDiff.missing_index n _ => some n
          | _ => none) = l := by
    intro l
    induction l with
    | nil => rfl
    | cons x xs ih => simp [List.filterMap_cons, ih]
  have h2 : ∀ l : List String,
      (l.map (fun n => SchemaDiff.extra_index n (indexGroup t n))).filterMap
        (fun d => match d with
          | SchemaDiff.missing_index n _ => some n
          | _ => none) = [] := by
    intro l
    induction l with
    | nil => rfl
    | cons x xs ih => simp [List.filterMap_cons, ih]
  rw [h1, h2]
  simp

theorem extraIndexNames_compare (s t : List IndexRow) :
    extraIndexNames (compare_indexes s t) =
      (indexNames t).filter (fun n => n ∉ indexNames s) := by
  unfold extraIndexNames compare_indexes
  rw [List.filterMap_append]
  have h1 : ∀ l : List String,
      (l.map (fun n => SchemaDiff.missing_index n (indexGroup s n))).filterMap
        (fun d => match d with
          | SchemaDiff.extra_index n _ => some n
          | _ => none) = [] := by
    intro l
    induction l with
    | nil => rfl
    | cons x xs ih => simp [List.filterMap_cons, ih]
  have h2 : ∀ l : List String,
      (l.map (fun n => SchemaDiff.extra_index n (indexGroup t n))).filterMap
        (fun d => match d with
          | SchemaDiff.extra_index n _ => some n
          | _ => none) = l := by
    intro l
    induction l with
    | nil => rfl
    | cons x xs ih => simp [List.filterMap_cons, ih]
  rw [h1, h2]
  simp

/-- C4: for every table schema (column rows, foreign-key rows, index rows),
diffing the schema against itself yields the empty difference list: no
column, type, nullability, default, column-order, foreign-key or index
difference is emitted when both sides are equal. -/
theorem C4_diff_self_empty (cols : List ColumnRow) (fks : List ForeignKeyRow)
    (idxs : List IndexRow) :
    compare_structures cols cols = [] ∧
    compare_foreign_keys fks fks = [] ∧
    compare_indexes idxs idxs = [] := by
  refine ⟨?_, ?_, ?_⟩
  · unfold compare_structures
    have h1 : (colsDict cols).filter (fun p => ! hasKey (colsDict cols) p.1) = [] := by
      rw [List.filter_eq_nil_iff]
      intro p hp
      simp [hasKey_of_mem hp]
    have h2 : (colsDict cols).flatMap (commonColumnDiffs (colsDict cols)) = [] := by
      rw [List.flatMap_eq_nil_iff]
      intro p hp
      unfold commonColumnDiffs
      rw [find?_self_of_keys_nodup (keys_nodup_colsDict cols) hp]
      simp
    simp [h1, h2]
  · unfold compare_foreign_keys
    have h : ∀ l : List (String × String × String),
        l.filter (fun t => decide (t ∉ l)) = [] := by
      intro l
      rw [List.filter_eq_nil_iff]
      intro t ht
      simp [ht]
    simp [h]
  · unfold compare_indexes
    have h : ∀ l : List String, l.filter (fun n => decide (n ∉ l)) = [] := by
      intro l
      rw [List.filter_eq_nil_iff]
      intro n hn
      simp [hn]
    simp [h]

/-- C5: for all schemas A and B, the set of column names reported as
MissingColumn by `diff(A,B)` equals the set reported as ExtraColumn by
`diff(B,A)`; the same duality holds for the foreign-key
(column, referenced table, referenced column) triples and for index names. -/
theorem C5_diff_duality (a b : List ColumnRow) (f g : List ForeignKeyRow)
    (s t : List IndexRow) :
    (∀ n, n ∈ missingColumnNames (compare_structures a b) ↔
          n ∈ extraColumnNames (compare_structures b a)) ∧
    (∀ tr, tr ∈ missingFkTriples (compare_foreign_keys f g) ↔
           tr ∈ extraFkTriples (compare_foreign_keys g f)) ∧
    (∀ n, n ∈ missingIndexNames (compare_indexes s t) ↔
          n ∈ extraIndexNames (compare_indexes t s)) := by
  refine ⟨?_, ?_, ?_⟩
  · intro n
    rw [missingColumnNames_compare, extraColumnNames_compare]
  · intro tr
    rw [missingFkTriples_compare, extraFkTriples_compare]
  · intro n
    rw [missingIndexNames_compare, extraIndexNames_compare]

/-! ### Dependency scheduler (`Replicator._sort_tables_by_dependency`)

The Python loop repeatedly selects every remaining table none of whose
dependencies is still remaining; if none qualifies (a cycle) it forcibly
selects one remaining table (`list(remaining)[0]`, modelled here as the
first remaining table in input-stable order).  Each iteration removes at
least one table, so `remaining.length` bounds the number of iterations:
the loop is modelled with that fuel, which structural recursion consumes. -/

def noDepsIn (deps : String → List String) (remaining : List String) (t : String) : Bool :=
  ! (deps t).any (fun d => remaining.contains d)

def sortAux (deps : String → List String) : Nat → List String → List String
  | _, [] => []
  | 0, _ :: _ => []
  | fuel + 1, r :: rs =>
    let remaining := r :: rs
    let no_deps := remaining.filter (noDepsIn deps remaining)
    let chosen := if no_deps.isEmpty then remaining.take 1 else no_deps
    chosen ++ sortAux deps fuel (remaining.filter (fun t => ! chosen.contains t))

/-- `Replicator._sort_tables_by_dependency`: dependencies are the referenced
tables restricted to the in-scope table set; the remaining set is the
deduplicated input. -/
def sort_tables_by_dependency (fkRefs : String → List String)
    (tables : List String) : List String :=
  let dependencies := fun t => (fkRefs t).filter (fun d => tables.contains d)
  sortAux dependencies (dedupFirst tables).length (dedupFirst tables)

theorem chosen_mem_and_sub (deps : String → List String) (r : String) (rs : List String) :
    (∃ x ∈ r :: rs,
      ((if ((r :: rs).filter (noDepsIn deps (r :: rs))).isEmpty
        then (r :: rs).take 1
        else (r :: rs).filter (noDepsIn deps (r :: rs))).contains x) = true) ∧
    (∀ x, x ∈ (if ((r :: rs).filter (noDepsIn deps (r :: rs))).isEmpty
        then (r :: rs).take 1
        else (r :: rs).filter (noDepsIn deps (r :: rs))) → x ∈ r :: rs) := by
  constructor
  · by_cases h : ((r :: rs).filter (noDepsIn deps (r :: rs))).isEmpty
    · refine ⟨r, List.mem_cons_self r rs, ?_⟩
      rw [if_pos h]
      simp
    · rcases hne : (r :: rs).filter (noDepsIn deps (r :: rs)) with _ | ⟨y, ys⟩
      · rw [hne] at h
        simp at h
      · have hy : y ∈ (r :: rs).filter (noDepsIn deps (r :: rs)) := by
          rw [hne]
          exact List.mem_cons_self y ys
        refine ⟨y, (List.mem_filter.mp hy).1, ?_⟩
        simp
  · intro x hx
    by_cases h : ((r :: rs).filter (noDepsIn deps (r :: rs))).isEmpty
    · rw [if_pos h] at hx
      simp at hx
      simp [hx]
    · rw [if_neg h] at hx
      exact (List.mem_filter.mp hx).1

theorem sortAux_perm (deps : String → List String) :
    ∀ (fuel : Nat) (remaining : List String), remaining.length ≤ fuel →
      remaining.Nodup →
      (sortAux deps fuel remaining).Nodup ∧
      ∀ t, t ∈ sortAux deps fuel remaining ↔ t ∈ remaining := by
  intro fuel
  induction fuel with
  | zero =>
    intro remaining hlen _
    have hnil : remaining = [] := List.eq_nil_of_length_eq_zero (Nat.le_zero.mp hlen)
    subst hnil
    simp [sortAux]
  | succ fuel ih =>
    intro remaining hlen hnd
    match remaining with
    | [] => simp [sortAux]
    | r :: rs =>
      obtain ⟨⟨x, hxmem, hxcont⟩, hchsub⟩ := chosen_mem_and_sub deps r rs
      simp only [sortAux]
      set C := (if ((r :: rs).filter (noDepsIn deps (r :: rs))).isEmpty
        then (r :: rs).take 1
        else (r :: rs).filter (noDepsIn deps (r :: rs))) with hC
      set R' := (r :: rs).filter (fun t => ! C.contains t) with hR'
      have hCnodup : C.Nodup := by
        rw [hC]
        by_cases h : ((r :: rs).filter (noDepsIn deps (r :: rs))).isEmpty
        · rw [if_pos h]
          simp
        · rw [if_neg h]
          exact hnd.filter _
      have hxC : x ∈ C := by simpa using hxcont
      have hR'len : R'.length ≤ fuel := by
        have hlt : R'.length < (r :: rs).length :=
          length_filter_lt_of_mem hxmem (by simp [hxC])
        simp at hlen
        simp at hlt
        omega
      have hR'nodup : R'.Nodup := hnd.filter _
      obtain ⟨hnodS, hmemS⟩ := ih R' hR'len hR'nodup
      have hR'mem : ∀ t, t ∈ R' ↔ (t ∈ r :: rs ∧ t ∉ C) := by
        intro t
        rw [hR']
        simp [List.mem_filter]
      constructor
      · rw [List.nodup_append]
        refine ⟨hCnodup, hnodS, ?_⟩
        intro a haC haS
        have : a ∈ R' := (hmemS a).mp haS
        exact ((hR'mem a).mp this).2 haC
      · intro t
        rw [List.mem_append, hmemS t, hR'mem t]
        constructor
        · rintro (h | ⟨h, _⟩)
          · exact hchsub t h
          · exact h
        · intro h
          by_cases hc : t ∈ C
          · exact Or.inl hc
          · exact Or.inr ⟨h, hc⟩

/-- C3: for every input list of table names and every foreign-key lookup
function (including cyclic dependency graphs), the dependency scheduler
terminates (it is a total function) and returns an ordering in which every
input table appears exactly once: the output is duplicate-free and has
exactly the input's members. -/
theorem C3_scheduler_permutation (fkRefs : String → List String)
    (tables : List String) :
    (sort_tables_by_dependency fkRefs tables).Nodup ∧
    ∀ t, t ∈ sort_tables_by_dependency fkRefs tables ↔ t ∈ tables := by
  have h := sortAux_perm (fun t => (fkRefs t).filter (fun d => tables.contains d))
    (dedupFirst tables).length (dedupFirst tables) le_rfl (nodup_dedupFirst tables)
  unfold sort_tables_by_dependency
  exact ⟨h.1, fun t => (h.2 t).trans (mem_dedupFirst t tables)⟩

/-! ### Claim C6: ordering of dependencies in the scheduler output -/

/-- A table `b` is reachable from `a` along the dependency edges of `deps`
(one or more steps): the relation used to express "has a cycle back to". -/
inductive DepReaches (deps : String → List String) : String → String → Prop
  | step {a b : String} : b ∈ deps a → DepReaches deps a b
  | tail {a b c : String} : DepReaches deps a b → c ∈ deps b → DepReaches deps a c

/-- Concrete dependency function for the C6 counterexample:
`t` references `a`; `a` and `b` reference each other (a cycle not involving
`t`). -/
def fkRefsC6 : String → List String := fun t =>
  if t = "t" then ["a"]
  else if t = "a" then ["b"]
  else if t = "b" then ["a"]
  else []

def tablesC6 : List String := ["t", "a", "b"]

theorem depReaches_fkRefsC6_from_a {x : String}
    (h : DepReaches fkRefsC6 "a" x) : x = "a" ∨ x = "b" := by
  induction h with
  | step hb =>
    rename_i b
    right
    simpa [fkRefsC6] using hb
  | tail _ hc ih =>
    rename_i b c _
    rcases ih with h' | h' <;> subst h'
    · right
      simpa [fkRefsC6] using hc
    · left
      simpa [fkRefsC6] using hc

theorem exists_min_rank (rank : String → Nat) :
    ∀ l : List String, l ≠ [] → ∃ m ∈ l, ∀ x ∈ l, rank m ≤ rank x := by
  intro l
  induction l with
  | nil => intro h; exact absurd rfl h
  | cons y ys ih =>
    intro _
    rcases hys : ys with _ | ⟨z, zs⟩
    · exact ⟨y, by simp, by simp⟩
    · rw [← hys]
      obtain ⟨m, hm, hmin⟩ := ih (by simp [hys])
      by_cases h : rank y ≤ rank m
      · refine ⟨y, by simp, ?_⟩
        intro x hx
        rcases List.mem_cons.mp hx with h' | h'
        · subst h'; exact le_rfl
        · exact le_trans h (hmin x h')
      · refine ⟨m, by simp [hm], ?_⟩
        intro x hx
        rcases List.mem_cons.mp hx with h' | h'
        · subst h'; omega
        · exact hmin x h'

theorem sortAux_dep_order (deps : String → List String) (rank : String → Nat)
    (S : List String) (hrank : ∀ t ∈ S, ∀ d ∈ deps t, rank d < rank t) :
    ∀ (fuel : Nat) (remaining : List String), remaining.length ≤ fuel →
      remaining.Nodup → (∀ x ∈ remaining, x ∈ S) →
      ∀ T ∈ remaining, ∀ D ∈ deps T, D ∈ remaining →
        idxOf D (sortAux deps fuel remaining) < idxOf T (sortAux deps fuel remaining) := by
  intro fuel
  induction fuel with
  | zero =>
    intro remaining hlen _ _ T hT
    have hnil : remaining = [] := List.eq_nil_of_length_eq_zero (Nat.le_zero.mp hlen)
    subst hnil
    cases hT
  | succ fuel ih =>
    intro remaining hlen hnd hsub T hT D hD hDrem
    match remaining with
    | [] => cases hT
    | r :: rs =>
      obtain ⟨⟨x, hxmem, hxcont⟩, hchsub⟩ := chosen_mem_and_sub deps r rs
      -- Under the rank hypothesis no forced cycle-break happens: the
      -- minimum-rank remaining table has no dependency still remaining.
      have hndeps : ¬ ((r :: rs).filter (noDepsIn deps (r :: rs))).isEmpty = true := by
        obtain ⟨m, hm, hmin⟩ := exists_min_rank rank (r :: rs) (by simp)
        have hmS : m ∈ S := hsub m hm
        have hmnd : noDepsIn deps (r :: rs) m = true := by
          unfold noDepsIn
          simp only [Bool.not_eq_true']
          rw [List.any_eq_false]
          intro d hd
          simp only [Bool.not_eq_true]
          rw [← Bool.not_eq_true]
          intro hcont
          have hdrem : d ∈ r :: rs := by simpa using hcont
          have h1 : rank d < rank m := hrank m hmS d hd
          have h2 : rank m ≤ rank d := hmin d hdrem
          omega
        intro hemp
        have : m ∈ (r :: rs).filter (noDepsIn deps (r :: rs)) :=
          List.mem_filter.mpr ⟨hm, hmnd⟩
        rw [List.isEmpty_iff.mp hemp] at this
        cases this
      simp only [sortAux]
      rw [if_neg hndeps]
      set C := (r :: rs).filter (noDepsIn deps (r :: rs)) with hC
      set R' := (r :: rs).filter (fun t => ! C.contains t) with hR'
      -- T still has the remaining dependency D, so T was not chosen.
      have hTC : T ∉ C := by
        intro hTc
        have := (List.mem_filter.mp hTc).2
        unfold noDepsIn at this
        simp only [Bool.not_eq_true'] at this
        rw [List.any_eq_false] at this
        have hcd := this D hD
        simp at hcd
        rcases List.mem_cons.mp hDrem with h | h
        · exact hcd.1 h
        · exact hcd.2 h
      have hTR' : T ∈ R' := by
        rw [hR']
        refine List.mem_filter.mpr ⟨hT, ?_⟩
        simp [hTC]
      have hR'len : R'.length ≤ fuel := by
        have hxC : x ∈ C := by
          have := hxcont
          rw [if_neg hndeps] at this
          simpa using this
        have hlt : R'.length < (r :: rs).length :=
          length_filter_lt_of_mem hxmem (by simp [hxC])
        simp at hlen
        simp at hlt
        omega
      have hTnotC : idxOf T (C ++ sortAux deps fuel R') =
          C.length + idxOf T (sortAux deps fuel R') := idxOf_append_right hTC _
      by_cases hDC : D ∈ C
      · have h1 : idxOf D (C ++ sortAux deps fuel R') = idxOf D C :=
          idxOf_append_left hDC _
        have h2 : idxOf D C < C.length := idxOf_lt_length hDC
        omega
      · have hDR' : D ∈ R' := by
          rw [hR']
          refine List.mem_filter.mpr ⟨hDrem, ?_⟩
          simp [hDC]
        have hrec := ih R' hR'len (hnd.filter _)
          (fun y hy => hsub y (List.mem_filter.mp hy).1) T hTR' D hD hDR'
        have h1 : idxOf D (C ++ sortAux deps fuel R') =
            C.length + idxOf D (sortAux deps fuel R') := idxOf_append_right hDC _
        omega

/-- C6 counterexample: in `tablesC6 = ["t","a","b"]` with edges t→a, a→b,
b→a, table `t` depends only on `a`, and no dependency of `t` has any cycle
back to `t` (nothing reaches `t`); yet the scheduler's forced cycle-break
(caused by the a/b cycle) emits `t` before its dependency `a`, refuting the
claim that such a `t` appears after all of its in-scope dependencies. -/
theorem C6_counterexample :
    (fkRefsC6 "t" = ["a"] ∧ "a" ∈ tablesC6 ∧ "t" ∈ tablesC6) ∧
    ¬ DepReaches fkRefsC6 "a" "t" ∧
    idxOf "t" (sort_tables_by_dependency fkRefsC6 tablesC6) <
      idxOf "a" (sort_tables_by_dependency fkRefsC6 tablesC6) := by
  refine ⟨by decide, ?_, by decide⟩
  intro h
  rcases depReaches_fkRefsC6_from_a h with h' | h' <;> exact absurd h' (by decide)

/-- C6 corrected: when the in-scope dependency graph is acyclic — witnessed
by a rank function that strictly decreases along every in-scope dependency
edge — every table appears after all of its in-scope dependencies in the
scheduler's output (the forced cycle-break never fires). -/
theorem C6_amended_acyclic_dependencies_first (fkRefs : String → List String)
    (tables : List String) (rank : String → Nat)
    (hrank : ∀ t ∈ tables, ∀ d ∈ fkRefs t, d ∈ tables → rank d < rank t)
    (T : String) (hT : T ∈ tables) (D : String) (hD : D ∈ fkRefs T)
    (hDt : D ∈ tables) :
    idxOf D (sort_tables_by_dependency fkRefs tables) <
      idxOf T (sort_tables_by_dependency fkRefs tables) := by
  unfold sort_tables_by_dependency
  refine sortAux_dep_order (fun t => (fkRefs t).filter (fun d => tables.contains d))
    rank tables ?_ (dedupFirst tables).length (dedupFirst tables) le_rfl
    (nodup_dedupFirst tables) (fun x hx => (mem_dedupFirst x tables).mp hx)
    T ((mem_dedupFirst T tables).mpr hT) D ?_ ((mem_dedupFirst D tables).mpr hDt)
  · intro t ht d hd
    rcases List.mem_filter.mp hd with ⟨hd1, hd2⟩
    exact hrank t ht d hd1 (by simpa using hd2)
  · exact List.mem_filter.mpr ⟨hD, List.elem_eq_true_of_mem hDt⟩

def fkRefsC6w : String → List String := fun t =>
  if t = "orders" then ["customers"] else []

def tablesC6w : List String := ["customers", "orders"]

def rankC6w : String → Nat := fun t => if t = "orders" then 1 else 0

/-- Witness for the corrected C6 theorem at a concrete acyclic input:
`orders` references `customers`, and the scheduler emits `customers`
before `orders`. -/
theorem C6_amended_witness :
    idxOf "customers" (sort_tables_by_dependency fkRefsC6w tablesC6w) <
      idxOf "orders" (sort_tables_by_dependency fkRefsC6w tablesC6w) :=
  C6_amended_acyclic_dependencies_first fkRefsC6w tablesC6w rankC6w
    (by decide) "orders" (by decide) "customers" (by decide) (by decide)

/-! ### Column position resolution (`Replicator._get_column_position`) -/

/-- `Replicator._get_column_position` as a pure function of the source column
order, the target column order and the column name (the Python method reads
the two orders through `get_table_structure` and then computes exactly
this).  The backward scan over `range(column_index-1, -1, -1)` is the
forward scan over the reversed prefix. -/
def get_column_position (source_columns target_columns : List String)
    (column_name : String) : String :=
  if column_name ∈ source_columns then
    let column_index := idxOf column_name source_columns
    if column_index = 0 then "FIRST"
    else
      match (source_columns.take column_index).reverse.find?
          (fun c => target_columns.contains c) with
      | some previous_column => "AFTER `" ++ previous_column ++ "`"
      | none => "FIRST"
  else ""

theorem find?_append_of_none {α : Type} {p : α → Bool} {l₁ : List α}
    (h : l₁.find? p = none) (l₂ : List α) :
    (l₁ ++ l₂).find? p = l₂.find? p := by
  induction l₁ with
  | nil => rfl
  | cons x xs ih =>
    by_cases hx : p x
    · rw [List.find?_cons_of_pos _ hx] at h
      cases h
    · rw [List.find?_cons_of_neg _ (by simpa using hx)] at h
      rw [List.cons_append, List.find?_cons_of_neg _ (by simpa using hx)]
      exact ih h

/-- C7: for every source order, target order and column name present in the
source order, position resolution is a deterministic pure function of those
three inputs (it is a function, `get_column_position`) and returns `FIRST`
when the column is first in source order; `FIRST` when no earlier
source-order column exists in the target; and `AFTER` the nearest earlier
source-order column that exists in the target otherwise (`p` is nearest:
every source-order column strictly between `p` and the column is absent
from the target). -/
theorem C7_column_position (src tgt : List String) (c : String) (hc : c ∈ src) :
    (idxOf c src = 0 → get_column_position src tgt c = "FIRST") ∧
    ((∀ x ∈ src.take (idxOf c src), ¬ x ∈ tgt) →
      get_column_position src tgt c = "FIRST") ∧
    (∀ l₁ p l₂, src.take (idxOf c src) = l₁ ++ p :: l₂ → p ∈ tgt →
      (∀ x ∈ l₂, ¬ x ∈ tgt) →
      get_column_position src tgt c = "AFTER `" ++ p ++ "`") := by
  refine ⟨?_, ?_, ?_⟩
  · intro h0
    unfold get_column_position
    rw [if_pos hc]
    simp [h0]
  · intro hnone
    unfold get_column_position
    rw [if_pos hc]
    by_cases h0 : idxOf c src = 0
    · simp [h0]
    · have hfind : (src.take (idxOf c src)).reverse.find?
          (fun x => tgt.contains x) = none := by
        rw [List.find?_eq_none]
        intro x hx
        have : x ∈ src.take (idxOf c src) := List.mem_reverse.mp hx
        simp [hnone x this]
      simp only [h0, if_false, hfind]
  · intro l₁ p l₂ hdec hp hl₂
    unfold get_column_position
    rw [if_pos hc]
    have h0 : ¬ idxOf c src = 0 := by
      intro h0
      rw [h0] at hdec
      simp at hdec
    have hrev : (src.take (idxOf c src)).reverse = l₂.reverse ++ p :: l₁.reverse := by
      rw [hdec]
      simp
    have hfind2 : (l₂.reverse).find? (fun x => tgt.contains x) = none := by
      rw [List.find?_eq_none]
      intro x hx
      simp [hl₂ x (List.mem_reverse.mp hx)]
    have hfind : (src.take (idxOf c src)).reverse.find?
        (fun x => tgt.contains x) = some p := by
      rw [hrev, find?_append_of_none hfind2,
        List.find?_cons_of_pos _ (by simp [hp])]
    simp only [h0, if_false, hfind]

/-- Witness for C7 at the spec's end-to-end scenario: source
`(id, name, email)`, target `(id, name, legacy_flag)`; the added column
`email` is placed after `name`. -/
theorem C7_column_position_witness :
    get_column_position ["id", "name", "email"] ["id", "name", "legacy_flag"]
      "email" = "AFTER `name`" :=
  (C7_column_position ["id", "name", "email"] ["id", "name", "legacy_flag"]
    "email" (by decide)).2.2 ["id"] "name" [] (by decide) (by decide)
    (by decide)

/-! ### Index reconciliation (`Replicator._update_indexes`) -/

/-- The list of DDL statements `Replicator._update_indexes` builds for a
table: for each `missing_index` difference other than `PRIMARY` it scans the
source's raw `SHOW INDEX` rows for the first row with that `Key_name` and
builds one single-column CREATE, unique when that row's `Non_unique` is 0;
for each `extra_index` other than `PRIMARY` it builds a DROP. -/
def update_indexes_queries (source_indexes : List IndexRow) (table_name : String)
    (differences : List SchemaDiff) : List String :=
  differences.flatMap fun d =>
    match d with
    | SchemaDiff.missing_index index_name _ =>
      if index_name ≠ "PRIMARY" then
        match source_indexes.find? (fun idx => idx.Key_name = index_name) with
        | some idx =>
          if idx.Non_unique = 0 then
            ["CREATE UNIQUE INDEX " ++ index_name ++ " ON " ++ table_name ++
              " (" ++ idx.Column_name ++ ")"]
          else
            ["CREATE INDEX " ++ index_name ++ " ON " ++ table_name ++
              " (" ++ idx.Column_name ++ ")"]
        | none => []
      else []
    | SchemaDiff.extra_index index_name _ =>
      if index_name ≠ "PRIMARY" then
        ["DROP INDEX " ++ index_name ++ " ON " ++ table_name]
      else []
    | _ => []

theorem missing_index_mem_compare {s t : List IndexRow} {name : String}
    {defn : List IndexRow}
    (h : SchemaDiff.missing_index name defn ∈ compare_indexes s t) :
    defn = indexGroup s name ∧ name ∈ indexNames s ∧ name ∉ indexNames t := by
  unfold compare_indexes at h
  rw [List.mem_append] at h
  rcases h with h | h
  · rcases List.mem_map.mp h with ⟨n, hn, he⟩
    cases he
    rcases List.mem_filter.mp hn with ⟨h1, h2⟩
    exact ⟨rfl, h1, by simpa using h2⟩
  · rcases List.mem_map.mp h with ⟨n, _, he⟩
    cases he

def idxRow1C8 : IndexRow := ⟨"idx_ab", 0, "col_a", 1⟩

def idxRow2C8 : IndexRow := ⟨"idx_ab", 0, "col_b", 2⟩

def sourceIdxC8 : List IndexRow := [idxRow1C8, idxRow2C8]

/-- C8 counterexample: a two-column unique index `idx_ab` over
`(col_a, col_b)` is missing from the target; the diff record carries both
underlying metadata rows, but the executor's CREATE statement covers only
the first member column `col_a` — the member `col_b` does not occur in the
emitted statement, so the created index does not include the full ordered
member-column list. -/
theorem C8_counterexample :
    compare_indexes sourceIdxC8 [] =
      [SchemaDiff.missing_index "idx_ab" [idxRow1C8, idxRow2C8]] ∧
    update_indexes_queries sourceIdxC8 "t" (compare_indexes sourceIdxC8 []) =
      ["CREATE UNIQUE INDEX idx_ab ON t (col_a)"] ∧
    strContains "CREATE UNIQUE INDEX idx_ab ON t (col_a)" "col_b" = false := by
  refine ⟨by decide, by decide, by decide⟩

/-- C8 corrected: for every missing non-PRIMARY index reported by the diff
engine (whose record carries the full grouped metadata-row list), the
executor emits one CREATE statement built from the FIRST member row of that
group only (the first raw source row with that `Key_name`), covering just
that row's single member column — not the full member list — and the
index is unique exactly when that first row's `Non_unique` flag is 0. -/
theorem C8_amended_first_member_column (source target : List IndexRow)
    (table name : String) (defn : List IndexRow)
    (hmem : SchemaDiff.missing_index name defn ∈ compare_indexes source target)
    (hnp : name ≠ "PRIMARY") (idx : IndexRow) (rest : List IndexRow)
    (hd : defn = idx :: rest) :
    (if idx.Non_unique = 0 then
      "CREATE UNIQUE INDEX " ++ name ++ " ON " ++ table ++
        " (" ++ idx.Column_name ++ ")"
    else
      "CREATE INDEX " ++ name ++ " ON " ++ table ++
        " (" ++ idx.Column_name ++ ")") ∈
      update_indexes_queries source table (compare_indexes source target) := by
  obtain ⟨hdefn, _, _⟩ := missing_index_mem_compare hmem
  have hfind : source.find? (fun r => r.Key_name = name) = some idx := by
    rw [find?_eq_head?_filter]
    have : source.filter (fun r => r.Key_name = name) = defn := by
      rw [hdefn]
      rfl
    rw [this, hd]
    rfl
  unfold update_indexes_queries
  rw [List.mem_flatMap]
  refine ⟨SchemaDiff.missing_index name defn, hmem, ?_⟩
  simp only [hfind, if_pos hnp]
  by_cases hu : idx.Non_unique = 0
  · simp [hu]
  · simp [hu]

/-- Witness for the corrected C8 theorem: the concrete two-column unique
index of the counterexample input; the emitted statement is the one built
from the first member row. -/
theorem C8_amended_witness :
    "CREATE UNIQUE INDEX idx_ab ON t (col_a)" ∈
      update_indexes_queries sourceIdxC8 "t" (compare_indexes sourceIdxC8 []) := by
  have h := C8_amended_first_member_column sourceIdxC8 [] "t" "idx_ab"
    [idxRow1C8, idxRow2C8] (by decide) (by decide) idxRow1C8 [idxRow2C8] rfl
  simpa [idxRow1C8] using h

/-! ### Data copier (`Replicator._insert_data` and `Replicator.replicate_data`)

`_insert_data` slices the row list as `data[i:i+1000]` for
`i in range(0, len(data), 1000)`; each slice consumes 1000 > 0 elements, so
`len(data)` bounds the number of slices and serves as structural fuel. -/

abbrev DataRow := List String

def chunksOf1000Fuel {α : Type} : Nat → List α → List (List α)
  | _, [] => []
  | 0, _ :: _ => []
  | fuel + 1, x :: xs =>
    (x :: xs).take 1000 :: chunksOf1000Fuel fuel ((x :: xs).drop 1000)

def chunksOf1000 {α : Type} (l : List α) : List (List α) :=
  chunksOf1000Fuel l.length l

/-- One batch is one transaction: `commit` is the outcome of the
`cursor.executemany` + `conn.commit` pair run inside one scoped connection
per batch.  The first failing batch stops the loop (`return False`); the
second component records the batches committed so far. -/
def run_batches {α : Type} (commit : List α → Bool) :
    List (List α) → Bool × List (List α)
  | [] => (true, [])
  | b :: bs =>
    if commit b then
      ((run_batches commit bs).1, b :: (run_batches commit bs).2)
    else (false, [])

/-- `Replicator._insert_data`: `if not data: return True`, then the batch
loop over the 1000-row slices. -/
def insert_data {α : Type} (commit : List α → Bool) (data : List α) :
    Bool × List (List α) :=
  if data.isEmpty then (true, [])
  else run_batches commit (chunksOf1000 data)

theorem chunksOf1000Fuel_flatten {α : Type} :
    ∀ (fuel : Nat) (l : List α), l.length ≤ fuel →
      (chunksOf1000Fuel fuel l).flatten = l := by
  intro fuel
  induction fuel with
  | zero =>
    intro l hl
    have hnil : l = [] := List.eq_nil_of_length_eq_zero (Nat.le_zero.mp hl)
    subst hnil
    rfl
  | succ fuel ih =>
    intro l hl
    match l with
    | [] => rfl
    | x :: xs =>
      have hdrop : ((x :: xs).drop 1000).length ≤ fuel := by
        rw [List.length_drop]
        simp at hl
        simp
        omega
      simp only [chunksOf1000Fuel, List.flatten_cons, ih _ hdrop]
      exact List.take_append_drop 1000 (x :: xs)

theorem chunksOf1000Fuel_length {α : Type} :
    ∀ (fuel : Nat) (l : List α), l.length ≤ fuel →
      (chunksOf1000Fuel fuel l).length = (l.length + 999) / 1000 := by
  intro fuel
  induction fuel with
  | zero =>
    intro l hl
    have hnil : l = [] := List.eq_nil_of_length_eq_zero (Nat.le_zero.mp hl)
    subst hnil
    simp only [chunksOf1000Fuel, List.length_nil]
  | succ fuel ih =>
    intro l hl
    match l with
    | [] =>
      simp only [chunksOf1000Fuel, List.length_nil]
    | x :: xs =>
      have hdrop : ((x :: xs).drop 1000).length ≤ fuel := by
        rw [List.length_drop]
        simp at hl
        simp
        omega
      simp only [chunksOf1000Fuel, List.length_cons, ih _ hdrop, List.length_drop]
      simp
      omega

theorem chunksOf1000Fuel_sizes {α : Type} :
    ∀ (fuel : Nat) (l : List α) (b : List α), b ∈ chunksOf1000Fuel fuel l →
      b.length ≤ 1000 ∧ b ≠ [] := by
  intro fuel
  induction fuel with
  | zero =>
    intro l b hb
    match l with
    | [] => cases hb
    | _ :: _ => cases hb
  | succ fuel ih =>
    intro l b hb
    match l with
    | [] => cases hb
    | x :: xs =>
      simp only [chunksOf1000Fuel] at hb
      rcases List.mem_cons.mp hb with h | h
      · subst h
        constructor
        · simp
        · intro hnil
          have := congrArg List.length hnil
          simp at this
      · exact ih _ b h

theorem run_batches_all_ok {α : Type} (commit : List α → Bool) :
    ∀ bs : List (List α), (∀ b ∈ bs, commit b = true) →
      run_batches commit bs = (true, bs) := by
  intro bs h
  induction bs with
  | nil => rfl
  | cons b bs ih =>
    have hb : commit b = true := h b (List.mem_cons_self b bs)
    have hrest := ih (fun x hx => h x (List.mem_cons_of_mem b hx))
    simp [run_batches, hb, hrest]

theorem run_batches_first_failure {α : Type} (commit : List α → Bool) :
    ∀ (bs : List (List α)) (k : Nat) (hk : k < bs.length),
      (∀ b ∈ bs.take k, commit b = true) →
      commit (bs.get ⟨k, hk⟩) = false →
      run_batches commit bs = (false, bs.take k) := by
  intro bs
  induction bs with
  | nil =>
    intro k hk
    cases hk
  | cons b bs ih =>
    intro k hk hpre hfail
    match k with
    | 0 =>
      simp at hfail
      simp [run_batches, hfail]
    | k + 1 =>
      have hb : commit b = true := hpre b (by simp)
      have hpre' : ∀ x ∈ bs.take k, commit x = true := by
        intro x hx
        exact hpre x (by simp [hx])
      have hfail' : commit (bs.get ⟨k, Nat.lt_of_succ_lt_succ hk⟩) = false := by
        simpa using hfail
      have := ih k (Nat.lt_of_succ_lt_succ hk) hpre' hfail'
      simp [run_batches, hb, this]

/-! ### `Replicator.replicate_data` over an abstract database environment

All database reads/writes of `replicate_data` are parameters: existence
checks, `get_table_structure` (only the `Field` names are used), the
truncate-with-delete-fallback outcome, `get_table_data`, and the per-batch
commit outcome of `_insert_data`. -/

structure DataEnv where
  source_exists : String → Bool
  target_exists : String → Bool
  source_fields : String → List String
  truncate_ok : String → Bool
  source_data : String → List DataRow
  commit : String → List DataRow → Bool

/-- Observable per-table actions of `replicate_data`, in execution order. -/
inductive DataEvent where
  | warn_skip (table : String)
  | warn_no_columns (table : String)
  | cleared (table : String)
  | batch (table : String) (rows : List DataRow)
deriving DecidableEq, Repr

/-- `Replicator.replicate_data`: per table, skip (with a warning) when the
table is missing on either side or has no columns; clear the target
(failure is fatal); copy the rows in 1000-row batches (a batch failure is
fatal); otherwise continue with the next table and finally return True. -/
def replicate_data (env : DataEnv) : List String → Bool × List DataEvent
  | [] => (true, [])
  | t :: ts =>
    if env.source_exists t = false then
      ((replicate_data env ts).1, DataEvent.warn_skip t :: (replicate_data env ts).2)
    else if env.target_exists t = false then
      ((replicate_data env ts).1, DataEvent.warn_skip t :: (replicate_data env ts).2)
    else if (env.source_fields t).isEmpty then
      ((replicate_data env ts).1, DataEvent.warn_no_columns t :: (replicate_data env ts).2)
    else if env.truncate_ok t = false then
      (false, [])
    else
      let ins := insert_data (env.commit t) (env.source_data t)
      let evts := DataEvent.cleared t :: ins.2.map (DataEvent.batch t)
      if ins.1 = false then (false, evts)
      else ((replicate_data env ts).1, evts ++ (replicate_data env ts).2)

/-- C9: the data copier slices the N source rows into ceiling(N/1000)
batches of at most 1000 rows each, covering all rows in order; each batch
is one `commit` call (one transaction); if every batch commits the whole
list is inserted; the first failing batch aborts the copy with the earlier
batches still committed; with zero source rows no insert is attempted; and
a failed copy makes `replicate_data` report failure for that table. -/
theorem C9_batched_insert (data : List DataRow) (commit : List DataRow → Bool) :
    ((chunksOf1000 data).flatten = data ∧
     (chunksOf1000 data).length = (data.length + 999) / 1000 ∧
     ∀ b ∈ chunksOf1000 data, b.length ≤ 1000 ∧ b ≠ []) ∧
    ((∀ b ∈ chunksOf1000 data, commit b = true) →
      insert_data commit data = (true, chunksOf1000 data)) ∧
    (∀ k, ∀ hk : k < (chunksOf1000 data).length,
      (∀ b ∈ (chunksOf1000 data).take k, commit b = true) →
      commit ((chunksOf1000 data).get ⟨k, hk⟩) = false →
      insert_data commit data = (false, (chunksOf1000 data).take k)) ∧
    (data = [] → insert_data commit data = (true, [])) ∧
    (∀ (env : DataEnv) (t : String) (ts : List String),
      env.commit t = commit → env.source_data t = data →
      env.source_exists t = true → env.target_exists t = true →
      (env.source_fields t).isEmpty = false → env.truncate_ok t = true →
      (insert_data commit data).1 = false →
      (replicate_data env (t :: ts)).1 = false) := by
  refine ⟨⟨chunksOf1000Fuel_flatten data.length data le_rfl,
    chunksOf1000Fuel_length data.length data le_rfl,
    fun b hb => chunksOf1000Fuel_sizes data.length data b hb⟩, ?_, ?_, ?_, ?_⟩
  · intro hall
    unfold insert_data
    by_cases he : data.isEmpty
    · have hnil : data = [] := by simpa [List.isEmpty_iff] using he
      subst hnil
      simp [chunksOf1000, chunksOf1000Fuel]
    · rw [if_neg he]
      exact run_batches_all_ok commit (chunksOf1000 data) hall
  · intro k hk hpre hfail
    unfold insert_data
    by_cases he : data.isEmpty
    · have hnil : data = [] := by simpa [List.isEmpty_iff] using he
      subst hnil
      simp [chunksOf1000, chunksOf1000Fuel] at hk
    · rw [if_neg he]
      exact run_batches_first_failure commit (chunksOf1000 data) k hk hpre hfail
  · intro hnil
    subst hnil
    rfl
  · intro env t ts hc hd h1 h2 h3 h4 h5
    simp only [replicate_data]
    rw [if_neg (by simp [h1]), if_neg (by simp [h2]), if_neg (by simp [h3]),
      if_neg (by simp [h4])]
    simp only [hc, hd, h5]
    simp

def envC9 : DataEnv :=
  ⟨fun _ => true, fun _ => true, fun _ => ["id"], fun _ => true,
    fun _ => [["1"], ["2"]], fun _ _ => false⟩

/-- Witness for C9 at concrete inputs: an all-commits copy of two rows
succeeds with one batch; an all-failing commit aborts with no batch
committed and makes `replicate_data` fail for the table. -/
theorem C9_batched_insert_witness :
    insert_data (fun _ => true) [["1"], ["2"]] = (true, [[["1"], ["2"]]]) ∧
    insert_data (fun _ => false) [["1"], ["2"]] = (false, []) ∧
    (replicate_data envC9 ["users"]).1 = false := by
  refine ⟨?_, ?_, ?_⟩
  · exact (C9_batched_insert [["1"], ["2"]] (fun _ => true)).2.1 (by decide)
  · exact (C9_batched_insert [["1"], ["2"]] (fun _ => false)).2.2.1 0 (by decide)
      (by decide) (by decide)
  · exact (C9_batched_insert [["1"], ["2"]] (fun _ => false)).2.2.2.2 envC9
      "users" [] rfl rfl (by decide) (by decide) (by decide) (by decide)
      (by decide)

/-- C10: a table missing from the source or from the target is skipped by
`replicate_data` with a warning: processing it contributes exactly one
warning event and continues with the remaining tables, no clear and no
batch insert ever happens for it, and the skip never affects the run's
reported outcome (the result is that of the table list with the skipped
table removed). -/
theorem C10_skip_missing_tables (env : DataEnv) (t : String)
    (hskip : env.source_exists t = false ∨ env.target_exists t = false) :
    (∀ ts, replicate_data env (t :: ts) =
      ((replicate_data env ts).1,
        DataEvent.warn_skip t :: (replicate_data env ts).2)) ∧
    (∀ tables, DataEvent.cleared t ∉ (replicate_data env tables).2 ∧
      ∀ rows, DataEvent.batch t rows ∉ (replicate_data env tables).2) ∧
    (∀ tables, (replicate_data env tables).1 =
      (replicate_data env (tables.filter (fun x => x ≠ t))).1) := by
  have hstep : ∀ ts, replicate_data env (t :: ts) =
      ((replicate_data env ts).1,
        DataEvent.warn_skip t :: (replicate_data env ts).2) := by
    intro ts
    rcases hskip with h | h
    · simp [replicate_data, h]
    · by_cases hs : env.source_exists t = false
      · simp [replicate_data, hs]
      · simp [replicate_data, hs, h]
  refine ⟨hstep, ?_, ?_⟩
  · intro tables
    induction tables with
    | nil => simp [replicate_data]
    | cons u us ih =>
      by_cases hut : u = t
      · subst hut
        rw [hstep us]
        simp only [Prod.snd]
        constructor
        · intro hmem
          rcases List.mem_cons.mp hmem with h | h
          · cases h
          · exact ih.1 h
        · intro rows hmem
          rcases List.mem_cons.mp hmem with h | h
          · cases h
          · exact ih.2 rows h
      · by_cases h1 : env.source_exists u = false
        · simp only [replicate_data, if_pos h1]
          constructor
          · intro hmem
            rcases List.mem_cons.mp hmem with h | h
            · cases h
            · exact ih.1 h
          · intro rows hmem
            rcases List.mem_cons.mp hmem with h | h
            · cases h
            · exact ih.2 rows h
        · by_cases h2 : env.target_exists u = false
          · simp only [replicate_data, if_neg h1, if_pos h2]
            constructor
            · intro hmem
              rcases List.mem_cons.mp hmem with h | h
              · cases h
              · exact ih.1 h
            · intro rows hmem
              rcases List.mem_cons.mp hmem with h | h
              · cases h
              · exact ih.2 rows h
          · by_cases h3 : (env.source_fields u).isEmpty
            · simp only [replicate_data, if_neg h1, if_neg h2, if_pos h3]
              constructor
              · intro hmem
                rcases List.mem_cons.mp hmem with h | h
                · cases h
                · exact ih.1 h
              · intro rows hmem
                rcases List.mem_cons.mp hmem with h | h
                · cases h
                · exact ih.2 rows h
            · by_cases h4 : env.truncate_ok u = false
              · simp only [replicate_data, if_neg h1, if_neg h2, if_neg h3,
                  if_pos h4]
                constructor
                · intro hmem
                  cases hmem
                · intro rows hmem
                  cases hmem
              · simp only [replicate_data, if_neg h1, if_neg h2, if_neg h3,
                  if_neg h4]
                by_cases h5 : (insert_data (env.commit u) (env.source_data u)).1 = false
                · rw [if_pos h5]
                  simp only [Prod.snd]
                  constructor
                  · intro hmem
                    rcases List.mem_cons.mp hmem with h | h
                    · rw [DataEvent.cleared.injEq] at h
                      subst h
                      rcases hskip with hh | hh
                      · simp [hh] at h1
                      · simp [hh] at h2
                    · rcases List.mem_map.mp h with ⟨b, _, hb⟩
                      cases hb
                  · intro rows hmem
                    rcases List.mem_cons.mp hmem with h | h
                    · cases h
                    · rcases List.mem_map.mp h with ⟨b, _, hb⟩
                      rw [DataEvent.batch.injEq] at hb
                      rcases hb with ⟨hbu, _⟩
                      subst hbu
                      rcases hskip with hh | hh
                      · simp [hh] at h1
                      · simp [hh] at h2
                · rw [if_neg h5]
                  simp only [Prod.snd]
                  constructor
                  · intro hmem
                    rcases List.mem_cons.mp hmem with h | h
                    · rw [DataEvent.cleared.injEq] at h
                      subst h
                      rcases hskip with hh | hh
                      · simp [hh] at h1
                      · simp [hh] at h2
                    · rcases List.mem_append.mp h with h' | h'
                      · rcases List.mem_map.mp h' with ⟨b, _, hb⟩
                        cases hb
                      · exact ih.1 h'
                  · intro rows hmem
                    rcases List.mem_cons.mp hmem with h | h
                    · cases h
                    · rcases List.mem_append.mp h with h' | h'
                      · rcases List.mem_map.mp h' with ⟨b, _, hb⟩
                        rw [DataEvent.batch.injEq] at hb
                        rcases hb with ⟨hbu, _⟩
                        subst hbu
                        rcases hskip with hh | hh
                        · simp [hh] at h1
                        · simp [hh] at h2
                      · exact ih.2 rows h'
  · intro tables
    induction tables with
    | nil => rfl
    | cons u us ih =>
      by_cases hut : u = t
      · subst hut
        rw [hstep us]
        have hf : (u :: us).filter (fun x => x ≠ u) = us.filter (fun x => x ≠ u) := by
          rw [List.filter_cons_of_neg (by simp)]
        rw [hf]
        exact ih
      · have hf : (u :: us).filter (fun x => x ≠ t) =
            u :: us.filter (fun x => x ≠ t) := by
          rw [List.filter_cons_of_pos (by simp [hut])]
        rw [hf]
        by_cases h1 : env.source_exists u = false
        · simp only [replicate_data, if_pos h1]
          exact ih
        · by_cases h2 : env.target_exists u = false
          · simp only [replicate_data, if_neg h1, if_pos h2]
            exact ih
          · by_cases h3 : (env.source_fields u).isEmpty
            · simp only [replicate_data, if_neg h1, if_neg h2, if_pos h3]
              exact ih
            · by_cases h4 : env.truncate_ok u = false
              · simp only [replicate_data, if_neg h1, if_neg h2, if_neg h3,
                  if_pos h4]
              · simp only [replicate_data, if_neg h1, if_neg h2, if_neg h3,
                  if_neg h4]
                by_cases h5 : (insert_data (env.commit u) (env.source_data u)).1 = false
                · rw [if_pos h5, if_pos h5]
                · rw [if_neg h5, if_neg h5]
                  exact ih

def envC10 : DataEnv :=
  ⟨fun x => x ≠ "ghost", fun _ => true, fun _ => ["id"], fun _ => true,
    fun _ => [], fun _ _ => true⟩

/-- Witness for C10: in an environment where table `ghost` does not exist
in the source, `replicate_data` on `["ghost"]` warns, performs no clear
and no insert, and still succeeds. -/
theorem C10_skip_missing_tables_witness :
    replicate_data envC10 ["ghost"] = (true, [DataEvent.warn_skip "ghost"]) ∧
    (replicate_data envC10 ["ghost"]).1 =
      (replicate_data envC10 []).1 := by
  have h := C10_skip_missing_tables envC10 "ghost" (Or.inl (by decide))
  exact ⟨by rw [h.1 []]; rfl, by rw [h.2.2 ["ghost"]]; rfl⟩

/-! ### Table creation (`DatabaseManager.execute_query`, `Replicator._create_table`,
`Replicator._create_table_without_foreign_keys`)

The database layer is modelled by an oracle `exec_raw` giving each
statement's outcome; `mysql.connector.Error` values are `DbErr` carrying
the message text `str(e)`.  `execute_query` wraps its cursor work in
`try/except Error: return False`, so it returns a `Bool` and can only
propagate a `DbErr` through its `Except` result if the error escapes the
handler — which never happens: both constructors of its result are `ok`.
Each function also returns the list of statements it handed to
`execute_query`, in order, so that which statements were attempted is
observable. -/

structure DbErr where
  msg : String
deriving DecidableEq, Repr

/-- `DatabaseManager.execute_query`: `try: execute; commit; return True`
`except Error: log; return False`.  The `Except.error` outcome is never
produced: database errors are caught and turned into `ok false`. -/
def execute_query (exec_raw : String → Except DbErr Unit) (query : String) :
    Except DbErr Bool :=
  match exec_raw query with
  | Except.ok _ => Except.ok true
  | Except.error _ => Except.ok false

def isSpaceChar (c : Char) : Bool := c.isWhitespace

/-- `re.sub(r',\s*\)', ')', s)` on the character list, scanning left to
right and continuing after each replacement; the list length bounds the
number of scanning steps. -/
def subCommaParenFuel : Nat → List Char → List Char
  | 0, l => l
  | _ + 1, [] => []
  | fuel + 1, c :: rest =>
    if c = ',' then
      match rest.dropWhile isSpaceChar with
      | ')' :: rest2 => ')' :: subCommaParenFuel fuel rest2
      | _ => ',' :: subCommaParenFuel fuel rest
    else c :: subCommaParenFuel fuel rest

/-- `re.sub(r',\s*,', ',', s)`, same scanning discipline. -/
def subCommaCommaFuel : Nat → List Char → List Char
  | 0, l => l
  | _ + 1, [] => []
  | fuel + 1, c :: rest =>
    if c = ',' then
      match rest.dropWhile isSpaceChar with
      | ',' :: rest2 => ',' :: subCommaCommaFuel fuel rest2
      | _ => ',' :: subCommaCommaFuel fuel rest
    else c :: subCommaCommaFuel fuel rest

/-- The statement transformation of `_create_table_without_foreign_keys`:
drop every line whose stripped text contains a FOREIGN KEY clause (the
CONSTRAINT conjunct of the Python condition is kept verbatim), rejoin,
then collapse a dangling comma before a closing parenthesis and a doubled
comma. -/
def strip_foreign_keys (original_statement : String) : String :=
  let lines := original_statement.splitOn "\n"
  let filtered_lines := lines.filter (fun line =>
    ! (strContains line.trim "FOREIGN KEY" ||
       (strContains line.trim "CONSTRAINT" && strContains line.trim "FOREIGN KEY")))
  let modified_statement := String.intercalate "\n" filtered_lines
  let s1 := String.mk (subCommaParenFuel modified_statement.data.length
    modified_statement.data)
  String.mk (subCommaCommaFuel s1.data.length s1.data)

/-- `Replicator._create_table_without_foreign_keys`: execute the stripped
statement; `execute_query` returning False is a logged failure. -/
def create_table_without_foreign_keys (exec_raw : String → Except DbErr Unit)
    (original_statement : String) : Bool × List String :=
  let modified_statement := strip_foreign_keys original_statement
  match execute_query exec_raw modified_statement with
  | Except.ok true => (true, [modified_statement])
  | Except.ok false => (false, [modified_statement])
  | Except.error _ => (false, [modified_statement])

/-- `Replicator._create_table`: fetch the CREATE statement (empty means
failure); try it through `execute_query`; only if an exception escapes
`execute_query` and its text contains "Foreign key constraint" does the
stripped retry run (`raise e` for other exceptions is caught by the outer
handler, giving False). -/
def create_table (exec_raw : String → Except DbErr Unit)
    (get_create : String → String) (table_name : String) : Bool × List String :=
  let create_statement := get_create table_name
  if create_statement = "" then (false, [])
  else
    match execute_query exec_raw create_statement with
    | Except.ok true => (true, [create_statement])
    | Except.ok false => (false, [create_statement])
    | Except.error e =>
      if strContains e.msg "Foreign key constraint" then
        ((create_table_without_foreign_keys exec_raw create_statement).1,
          create_statement ::
            (create_table_without_foreign_keys exec_raw create_statement).2)
      else (false, [create_statement])

/-- The create loop of `Replicator.replicate_structure` (lines 51-53): the
result of `_create_table` is discarded, the loop continues, and the
function goes on to return True. -/
def replicate_structure_create (exec_raw : String → Except DbErr Unit)
    (get_create : String → String) : List String → Bool × List String
  | [] => (true, [])
  | t :: ts =>
    ((replicate_structure_create exec_raw get_create ts).1,
      (create_table exec_raw get_create t).2 ++
        (replicate_structure_create exec_raw get_create ts).2)

/-- C1 (code behavior, contradicting the claim): when executing a table's
CREATE statement fails — in particular with a foreign-key constraint
violation — `execute_query` catches the error and returns False, so the
foreign-key retry branch of `_create_table` never runs: exactly one
statement (the original) is attempted, no stripped statement is executed,
no FK-deferred state arises, and the create loop discards the failure so
`replicate_structure` continues and reports success instead of aborting. -/
theorem C1_create_failure_swallowed (exec_raw : String → Except DbErr Unit)
    (get_create : String → String) (t : String) (e : DbErr)
    (hne : get_create t ≠ "")
    (hfail : exec_raw (get_create t) = Except.error e) :
    create_table exec_raw get_create t = (false, [get_create t]) ∧
    replicate_structure_create exec_raw get_create [t] =
      (true, [get_create t]) := by
  have hq : execute_query exec_raw (get_create t) = Except.ok false := by
    unfold execute_query
    rw [hfail]
  have hct : create_table exec_raw get_create t = (false, [get_create t]) := by
    unfold create_table
    rw [if_neg hne]
    simp only [hq]
  refine ⟨hct, ?_⟩
  simp [replicate_structure_create, hct]

def execRawC1 : String → Except DbErr Unit :=
  fun _ => Except.error ⟨"1215 (HY000): Foreign key constraint is incorrectly formed"⟩

def getCreateC1 : String → String := fun _ =>
  "CREATE TABLE orders (id INT)"

/-- Witness for the C1 theorem at a concrete input: the CREATE fails with a
foreign-key constraint error text, yet only the original statement is
attempted and the create phase reports success. -/
theorem C1_create_failure_swallowed_witness :
    create_table execRawC1 getCreateC1 "orders" =
      (false, ["CREATE TABLE orders (id INT)"]) ∧
    replicate_structure_create execRawC1 getCreateC1 ["orders"] =
      (true, ["CREATE TABLE orders (id INT)"]) :=
  C1_create_failure_swallowed execRawC1 getCreateC1 "orders"
    ⟨"1215 (HY000): Foreign key constraint is incorrectly formed"⟩
    (by decide) rfl

/-! ### Execution order of `Replicator.replicate_structure` /
`Replicator.full_replication`

The plan is the output shape of `StructureAnalyzer.get_replication_plan`.
`replicate_structure` first collects, in one pass over the plan, the
tables with a `create_table` action and the `(table, action)` pairs for
the other structural actions; it then runs the dependency-sorted create
loop, then one combined loop over the collected `(table, action)` pairs
(alter / foreign-key / index actions interleaved in plan order), then the
pending-foreign-keys pass; `full_replication` finally runs
`replicate_data` over the maintained tables. -/

inductive PlanAction where
  | create_table
  | alter_table (differences : List SchemaDiff)
  | update_foreign_keys (differences : List SchemaDiff)
  | update_indexes (differences : List SchemaDiff)
  | replicate_data (source_count target_count : Nat)
deriving DecidableEq, Repr

structure PlanStep where
  table : String
  actions : List PlanAction
  is_maintain_table : Bool
deriving DecidableEq, Repr

/-- Observable executor actions, in execution order. -/
inductive RepEvent where
  | create (table : String)
  | alter (table : String)
  | update_fks (table : String)
  | update_idx (table : String)
  | reconcile_fks
  | data_step (e : DataEvent)
deriving DecidableEq, Repr

def tables_to_create (plan : List PlanStep) : List String :=
  plan.flatMap (fun step => step.actions.filterMap (fun a =>
    match a with
    | PlanAction.create_table => some step.table
    | _ => none))

def tables_to_alter (plan : List PlanStep) : List (String × PlanAction) :=
  plan.flatMap (fun step => step.actions.filterMap (fun a =>
    match a with
    | PlanAction.alter_table _ => some (step.table, a)
    | PlanAction.update_foreign_keys _ => some (step.table, a)
    | PlanAction.update_indexes _ => some (step.table, a)
    | _ => none))

def alterEvents : String × PlanAction → List RepEvent
  | (t, PlanAction.alter_table _) => [RepEvent.alter t]
  | (t, PlanAction.update_foreign_keys _) => [RepEvent.update_fks t]
  | (t, PlanAction.update_indexes _) => [RepEvent.update_idx t]
  | _ => []

/-- The executor actions of `replicate_structure`, in execution order:
sorted creates, then the combined alter/foreign-key/index loop in plan
order, then `_add_missing_foreign_keys`. -/
def replicate_structure_trace (fkRefs : String → List String)
    (plan : List PlanStep) : List RepEvent :=
  let to_create := tables_to_create plan
  let sorted := if to_create.isEmpty then to_create
    else sort_tables_by_dependency fkRefs to_create
  sorted.map RepEvent.create ++
    (tables_to_alter plan).flatMap alterEvents ++ [RepEvent.reconcile_fks]

/-- `full_replication`: structure replication, then data replication over the
maintained tables (with no maintained tables, `replicate_data` contributes
no events, matching the skipped call). -/
def full_replication_trace (fkRefs : String → List String)
    (plan : List PlanStep) (env : DataEnv) (maintain_tables : List String) :
    List RepEvent :=
  replicate_structure_trace fkRefs plan ++
    (replicate_data env maintain_tables).2.map RepEvent.data_step

/-- Phase number of an event: create = 0, the combined structural loop = 1,
FK reconciliation = 2, data replication = 3. -/
def phaseRank : RepEvent → Nat
  | RepEvent.create _ => 0
  | RepEvent.alter _ => 1
  | RepEvent.update_fks _ => 1
  | RepEvent.update_idx _ => 1
  | RepEvent.reconcile_fks => 2
  | RepEvent.data_step _ => 3

def planC2 : List PlanStep :=
  [⟨"t1", [PlanAction.alter_table [], PlanAction.update_foreign_keys []], false⟩,
   ⟨"t2", [PlanAction.alter_table []], false⟩]

/-- C2 counterexample: with two altered tables — `t1` carrying both an
AlterColumns and a ReconcileForeignKeys action, `t2` carrying an
AlterColumns action — the executor interleaves action types in plan
order: `t1`'s foreign-key action runs (position 1) before `t2`'s
AlterColumns action (position 2), so the AlterColumns phase does not
complete before the ReconcileForeignKeys phase starts. -/
theorem C2_counterexample :
    replicate_structure_trace (fun _ => []) planC2 =
      [RepEvent.alter "t1", RepEvent.update_fks "t1", RepEvent.alter "t2",
        RepEvent.reconcile_fks] ∧
    RepEvent.update_fks "t1" ∈ replicate_structure_trace (fun _ => []) planC2 ∧
    RepEvent.alter "t2" ∈ replicate_structure_trace (fun _ => []) planC2 ∧
    idxOf (RepEvent.update_fks "t1") (replicate_structure_trace (fun _ => []) planC2) <
      idxOf (RepEvent.alter "t2") (replicate_structure_trace (fun _ => []) planC2) := by
  refine ⟨by decide, by decide, by decide, by decide⟩

/-- C2 corrected: execution is phase-monotone in the order create-phase
(0), combined alter/foreign-key/index loop (1, interleaved across action
types in plan order), FK-reconciliation pass (2), data replication (3):
no event of a later phase ever precedes an event of an earlier phase.
Every CreateTable action still completes before any structural action
starts, and the FK-reconciliation pass and data replication still run
last, in that order; but AlterColumns / ReconcileForeignKeys /
ReconcileIndexes actions are interleaved per table rather than run as
whole-plan phases. -/
theorem C2_amended_phase_monotone (fkRefs : String → List String)
    (plan : List PlanStep) (env : DataEnv) (maintain_tables : List String) :
    List.Pairwise (fun a b => phaseRank a ≤ phaseRank b)
      (full_replication_trace fkRefs plan env maintain_tables) := by
  have hrank : ∀ (l : List RepEvent) (c : Nat), (∀ e ∈ l, phaseRank e = c) →
      List.Pairwise (fun a b => phaseRank a ≤ phaseRank b) l := by
    intro l c hc
    refine List.pairwise_of_forall_mem_list ?_
    intro a ha b hb
    rw [hc a ha, hc b hb]
  have hcreate : ∀ e ∈ (if (tables_to_create plan).isEmpty
      then tables_to_create plan
      else sort_tables_by_dependency fkRefs (tables_to_create plan)).map
        RepEvent.create, phaseRank e = 0 := by
    intro e he
    rcases List.mem_map.mp he with ⟨t, _, rfl⟩
    rfl
  have halter : ∀ e ∈ (tables_to_alter plan).flatMap alterEvents,
      phaseRank e = 1 := by
    intro e he
    rcases List.mem_flatMap.mp he with ⟨p, _, hep⟩
    rcases p with ⟨t, a⟩
    cases a with
    | create_table => simp [alterEvents] at hep
    | alter_table d =>
      simp only [alterEvents, List.mem_singleton] at hep
      subst hep
      rfl
    | update_foreign_keys d =>
      simp only [alterEvents, List.mem_singleton] at hep
      subst hep
      rfl
    | update_indexes d =>
      simp only [alterEvents, List.mem_singleton] at hep
      subst hep
      rfl
    | replicate_data s t' => simp [alterEvents] at hep
  have hdata : ∀ e ∈ (replicate_data env maintain_tables).2.map
      RepEvent.data_step, phaseRank e = 3 := by
    intro e he
    rcases List.mem_map.mp he with ⟨d, _, rfl⟩
    rfl
  unfold full_replication_trace replicate_structure_trace
  rw [List.append_assoc, List.append_assoc]
  rw [List.pairwise_append]
  refine ⟨hrank _ 0 hcreate, ?_, ?_⟩
  · rw [List.pairwise_append]
    refine ⟨hrank _ 1 halter, ?_, ?_⟩
    · rw [List.pairwise_append]
      refine ⟨hrank _ 2 (by intro e he; rw [List.mem_singleton] at he; subst he; rfl),
        hrank _ 3 hdata, ?_⟩
      intro a ha b hb
      rw [List.mem_singleton] at ha
      subst ha
      rw [hdata b hb]
      exact Nat.le_of_lt (by decide)
    · intro a ha b hb
      rw [halter a ha]
      rcases List.mem_append.mp hb with h | h
      · rw [List.mem_singleton] at h
        subst h
        exact Nat.le_of_lt (by decide)
      · rw [hdata b h]
        exact Nat.le_of_lt (by decide)
  · intro a ha b hb
    rw [hcreate a ha]
    exact Nat.zero_le _
